import Mathlib

/-!
Verification of the `RowBlock` in-memory row container
(`src/be/src/olap/row_block.h` of the Doris storage engine).

Two views of the block are embedded:

* `RowBlock` — the byte-level view, translated from the inline member
  functions of the header (`get_row`, `set_row`, `field_ptr`, cursor
  accessors `pos`/`limit`/`remaining`/`has_remaining`/`pos_inc`, …).
  `size_t` fields are modelled as `Nat` values below `2^64`, with the
  unsigned wrap-around made explicit where the C++ arithmetic can wrap.
* `RowBlockK` — the key-level view used by the lifecycle and binary-search
  operations whose bodies live in `row_block.cpp` (not part of this tree):
  those definitions are modelled from the spec, each marked as such in its
  doc comment.
-/

/-- The number of values of the C++ type `size_t` (64-bit): arithmetic on
`_pos`, `_limit` and `remaining()` is carried out modulo this constant. -/
def USIZE : Nat := 2 ^ 64

/-- Byte-level state of a `RowBlock`, the fields of the C++ class:
`_mem_buf` is split into the pointer value `bufBase` and the byte contents
`memBuf` (byte at address `bufBase + j` is `memBuf[j]`); `_mem_row_bytes`,
`_field_offset_in_memory`, `_capacity`, `_info.row_num`, `_pos`, `_limit`
and `_block_status` map to the homonymous fields. -/
structure RowBlock where
  bufBase : Nat
  memBuf : List Nat
  memRowBytes : Nat
  fieldOffsetInMemory : List Nat
  capacity : Nat
  rowNum : Nat
  pos : Nat
  limit : Nat
  blockStatus : Nat
deriving Repr, DecidableEq

namespace RowBlock

/-- `get_row(row_index, cursor)` attaches the cursor to
`_mem_buf + row_index * _mem_row_bytes`; the returned value is the address
the cursor is attached to (row_block.h:69-71). -/
def get_row (b : RowBlock) (rowIndex : Nat) : Nat :=
  b.bufBase + rowIndex * b.memRowBytes

/-- Overwrite `len` bytes of `buf` starting at index `base` with the first
`len` bytes of `src` (the `memcpy` in `set_row`); bytes outside the window
are unchanged and the length of the buffer is preserved. -/
def memWrite (buf : List Nat) (base : Nat) (src : List Nat) (len : Nat) : List Nat :=
  (List.range buf.length).map fun j =>
    if base ≤ j ∧ j < base + len then src.getD (j - base) 0 else buf.getD j 0

/-- `set_row(row_index, row)` copies exactly `_mem_row_bytes` bytes of the
source row to `_mem_buf + row_index * _mem_row_bytes` (row_block.h:73-76). -/
def set_row (b : RowBlock) (rowIndex : Nat) (src : List Nat) : RowBlock :=
  { b with memBuf := memWrite b.memBuf (rowIndex * b.memRowBytes) src b.memRowBytes }

/-- `field_ptr(row, col)` returns
`_mem_buf + _mem_row_bytes * row + _field_offset_in_memory[col]`
(row_block.h:93-97). -/
def field_ptr (b : RowBlock) (row col : Nat) : Nat :=
  b.bufBase + b.memRowBytes * row + b.fieldOffsetInMemory.getD col 0

/-- Read the byte stored at absolute address `addr` (a cursor attached at
`addr` reads its bytes from there). -/
def readByteAt (b : RowBlock) (addr : Nat) : Nat :=
  b.memBuf.getD (addr - b.bufBase) 0

/-- `pos_inc() { _pos++; }` — the increment of the `size_t` member wraps
modulo `2^64` (row_block.h:108). -/
def pos_inc (b : RowBlock) : RowBlock :=
  { b with pos := (b.pos + 1) % USIZE }

/-- `set_pos(pos)` (row_block.h:107). -/
def set_pos (b : RowBlock) (p : Nat) : RowBlock := { b with pos := p }

/-- `set_limit(limit)` (row_block.h:110). -/
def set_limit (b : RowBlock) (l : Nat) : RowBlock := { b with limit := l }

/-- `remaining() { return _limit - _pos; }` — unsigned `size_t`
subtraction, i.e. `(_limit - _pos)` modulo `2^64` (row_block.h:111). -/
def remaining (b : RowBlock) : Nat :=
  (b.limit + USIZE - b.pos) % USIZE

/-- `has_remaining() { return _pos < _limit; }` (row_block.h:112). -/
def has_remaining (b : RowBlock) : Bool :=
  b.pos < b.limit

/-- `row_num()` returns `_info.row_num` (row_block.h:88). -/
def row_num (b : RowBlock) : Nat := b.rowNum

/-- `block_status()` returns `_block_status` (row_block.h:113). -/
def block_status (b : RowBlock) : Nat := b.blockStatus

/-- `set_block_status(status)` (row_block.h:114). -/
def set_block_status (b : RowBlock) (s : Nat) : RowBlock := { b with blockStatus := s }

/-- Iterate `pos_inc` `k` times. -/
def posIncN : Nat → RowBlock → RowBlock
  | 0, b => b
  | k + 1, b => posIncN k b.pos_inc

end RowBlock

section CursorLemmas

open RowBlock

theorem posIncN_limit (k : Nat) : ∀ b : RowBlock, (posIncN k b).limit = b.limit := by
  induction k with
  | zero => intro b; rfl
  | succ k ih => intro b; simpa [posIncN, pos_inc] using ih b.pos_inc

theorem posIncN_pos (k : Nat) : ∀ b : RowBlock, b.pos + k < USIZE →
    (posIncN k b).pos = b.pos + k := by
  induction k with
  | zero => intro b _; rfl
  | succ k ih =>
    intro b hb
    have h1 : b.pos + 1 < USIZE := by omega
    have h2 : b.pos_inc.pos = b.pos + 1 := by
      simp [pos_inc, Nat.mod_eq_of_lt h1]
    have := ih b.pos_inc (by rw [h2]; omega)
    rw [posIncN, this, h2]
    omega

end CursorLemmas

theorem memWrite_getD (buf src : List Nat) (base len j : Nat) :
    (RowBlock.memWrite buf base src len).getD j 0 =
      if j < buf.length then
        (if base ≤ j ∧ j < base + len then src.getD (j - base) 0 else buf.getD j 0)
      else 0 := by
  unfold RowBlock.memWrite
  by_cases hj : j < buf.length
  · rw [List.getD_eq_getElem?_getD, List.getElem?_map, List.getElem?_range hj]
    simp [hj]
  · rw [List.getD_eq_getElem?_getD, List.getElem?_eq_none (by simpa using hj)]
    simp [hj]

theorem memWrite_getD_out (buf src : List Nat) (base len j : Nat)
    (h : j < base ∨ base + len ≤ j) :
    (RowBlock.memWrite buf base src len).getD j 0 = buf.getD j 0 := by
  rw [memWrite_getD]
  by_cases hj : j < buf.length
  · rw [if_pos hj, if_neg (by omega)]
  · rw [if_neg hj, List.getD_eq_getElem?_getD, List.getElem?_eq_none (by omega)]
    rfl

/-- One cursor call out of `pos_inc` / `set_limit`, restricted to calls
respecting `0 ≤ pos ≤ limit ≤ row_count` (the discipline stated by the spec
for the scan cursor). -/
inductive CursorStep : RowBlock → RowBlock → Prop
  | posInc (s : RowBlock) : s.pos + 1 ≤ s.limit → CursorStep s s.pos_inc
  | setLimit (s : RowBlock) (l : Nat) :
      s.pos ≤ l → l ≤ s.rowNum → CursorStep s (s.set_limit l)

/-- Cursor states reachable from a start state by `pos_inc` / `set_limit`
calls respecting the discipline. -/
inductive CursorReach (s0 : RowBlock) : RowBlock → Prop
  | refl : CursorReach s0 s0
  | tail {t u : RowBlock} : CursorReach s0 t → CursorStep t u → CursorReach s0 u

theorem cursorReach_inv (s0 s : RowBlock) (h0 : s0.pos ≤ s0.limit)
    (h1 : s0.limit ≤ s0.rowNum) (hn : s0.rowNum < USIZE) (h : CursorReach s0 s) :
    s.pos ≤ s.limit ∧ s.limit ≤ s.rowNum ∧ s.rowNum = s0.rowNum := by
  induction h with
  | refl => exact ⟨h0, h1, rfl⟩
  | tail hr hs ih =>
    rcases ih with ⟨hp, hl, hrn⟩
    cases hs with
    | posInc ht =>
      rename_i t
      refine ⟨?_, hl, hrn⟩
      have hlt : t.pos + 1 < USIZE := by omega
      simpa [RowBlock.pos_inc, Nat.mod_eq_of_lt hlt] using ht
    | setLimit l hpl hln =>
      exact ⟨hpl, hln, hrn⟩

/-- The cursor state right after `finalize(4)` on an otherwise trivial
block: `pos = 0`, `limit = row_num = 4` (the scenario block of the spec). -/
def blk4 : RowBlock :=
  { bufBase := 0, memBuf := [], memRowBytes := 0, fieldOffsetInMemory := [],
    capacity := 4, rowNum := 4, pos := 0, limit := 4, blockStatus := 1 }

/-- C4: for every cursor state reachable by `pos_inc`/`set_limit` calls
respecting `0 ≤ pos ≤ limit ≤ row_count`, `remaining() = limit() - pos()`
and `has_remaining() = (pos() < limit())`. -/
theorem C4_cursor_invariants (s0 s : RowBlock) (h0 : s0.pos = 0)
    (h1 : s0.limit ≤ s0.rowNum) (hn : s0.rowNum < USIZE) (h : CursorReach s0 s) :
    s.remaining = s.limit - s.pos ∧ s.has_remaining = decide (s.pos < s.limit) := by
  obtain ⟨hp, hl, hrn⟩ := cursorReach_inv s0 s (by omega) h1 hn h
  constructor
  · unfold RowBlock.remaining
    have he : s.limit + USIZE - s.pos = USIZE + (s.limit - s.pos) := by omega
    rw [he, Nat.add_mod_left, Nat.mod_eq_of_lt (by omega)]
  · rfl

/-- Witness for C4 at a concrete reachable state: `set_limit 2` then one
`pos_inc` from the post-`finalize(4)` state. -/
theorem C4_cursor_invariants_witness :
    ((blk4.set_limit 2).pos_inc).remaining = 1 ∧
    ((blk4.set_limit 2).pos_inc).has_remaining = true := by
  have hreach : CursorReach blk4 ((blk4.set_limit 2).pos_inc) :=
    CursorReach.tail
      (CursorReach.tail CursorReach.refl (CursorStep.setLimit blk4 2 (by decide) (by decide)))
      (CursorStep.posInc (blk4.set_limit 2) (by decide))
  have h := C4_cursor_invariants blk4 ((blk4.set_limit 2).pos_inc) rfl (by decide)
    (by decide) hreach
  exact ⟨h.1.trans (by decide), h.2.trans (by decide)⟩

/-- The concrete state of the C3 scenario continued past the limit:
`limit` set to `2`, `pos` pushed to `3` (one increment beyond the limit). -/
def c3s : RowBlock := (blk4.set_limit 2).set_pos 3

/-- Counterexample to C3 as stated: with `limit = 2`, four `pos_inc` calls
push `pos` to `4 > limit`, and `remaining()` — the unsigned `size_t`
subtraction `_limit - _pos` — yields the wrapped value `2^64 - 2`, not the
correct count `0`: `pos` exceeding `limit` does silently produce a wrong
`remaining()`. -/
theorem C3_counterexample :
    (RowBlock.posIncN 4 (blk4.set_limit 2)).pos = 4 ∧
    (RowBlock.posIncN 4 (blk4.set_limit 2)).limit = 2 ∧
    (RowBlock.posIncN 4 (blk4.set_limit 2)).remaining = 2 ^ 64 - 2 ∧
    (RowBlock.posIncN 4 (blk4.set_limit 2)).remaining ≠ 0 := by
  refine ⟨?_, ?_, ?_, ?_⟩ <;> decide

/-- C3 (amended): once `pos` has reached `limit`, `has_remaining()` is
false and stays false under further `pos_inc` calls as long as `pos` does
not wrap around `2^64`; and once `pos` exceeds `limit`, `remaining()` is
the wrapped unsigned difference `2^64 - (pos - limit)` — never negative as
a `size_t`, but a wrong (huge) value rather than `0`. -/
theorem C3_pos_past_limit (s : RowBlock) (k : Nat) (hls : s.limit ≤ s.pos)
    (hw : s.pos + k < USIZE) :
    (RowBlock.posIncN k s).has_remaining = false ∧
    (s.limit < s.pos → s.remaining = USIZE - (s.pos - s.limit)) := by
  constructor
  · have hp := posIncN_pos k s hw
    have hl := posIncN_limit k s
    simp only [RowBlock.has_remaining, hp, hl, decide_eq_false_iff_not]
    omega
  · intro hlt
    unfold RowBlock.remaining
    have he : s.limit + USIZE - s.pos = USIZE - (s.pos - s.limit) := by omega
    rw [he, Nat.mod_eq_of_lt (by omega)]

/-- Witness for the amended C3 at the concrete scenario state `c3s`
(`pos = 3`, `limit = 2`). -/
theorem C3_pos_past_limit_witness :
    c3s.limit ≤ c3s.pos ∧ c3s.pos + 1 < USIZE ∧
    ((RowBlock.posIncN 1 c3s).has_remaining = false ∧
      (c3s.limit < c3s.pos → c3s.remaining = USIZE - (c3s.pos - c3s.limit))) :=
  ⟨by decide, by decide, C3_pos_past_limit c3s 1 (by decide) (by decide)⟩

/-- A concrete block for the C2 witness: three rows of two bytes each,
buffer filled with the byte `9`, based at address `100`. -/
def c2blk : RowBlock :=
  { bufBase := 100, memBuf := [9, 9, 9, 9, 9, 9], memRowBytes := 2,
    fieldOffsetInMemory := [], capacity := 3, rowNum := 3, pos := 0,
    limit := 3, blockStatus := 1 }

/-- C2: `set_row(index, source)` copies exactly `row_stride` bytes of
`source` into slot `index`; `get_row(index, cursor)` attaches the cursor at
byte address `index * row_stride` in the buffer; reading each byte through
the attached cursor returns exactly the bytes written by `set_row` for that
slot, and every other row's bytes are unchanged. -/
theorem C2_set_get_roundtrip (b : RowBlock) (src : List Nat) (i : Nat)
    (hfit : (i + 1) * b.memRowBytes ≤ b.memBuf.length) :
    b.get_row i = b.bufBase + i * b.memRowBytes ∧
    (∀ k, k < b.memRowBytes →
      (b.set_row i src).readByteAt ((b.set_row i src).get_row i + k) = src.getD k 0) ∧
    (∀ j k, j ≠ i → k < b.memRowBytes →
      (b.set_row i src).readByteAt ((b.set_row i src).get_row j + k) =
        b.readByteAt (b.get_row j + k)) := by
  have hstep : (i + 1) * b.memRowBytes = i * b.memRowBytes + b.memRowBytes := by ring
  refine ⟨rfl, ?_, ?_⟩
  · intro k hk
    simp only [RowBlock.set_row, RowBlock.readByteAt, RowBlock.get_row]
    have haddr : b.bufBase + i * b.memRowBytes + k - b.bufBase = i * b.memRowBytes + k := by
      omega
    rw [haddr, memWrite_getD, if_pos (by omega),
      if_pos ⟨Nat.le_add_right _ _, by omega⟩, Nat.add_sub_cancel_left]
  · intro j k hne hk
    simp only [RowBlock.set_row, RowBlock.readByteAt, RowBlock.get_row]
    have haddr : b.bufBase + j * b.memRowBytes + k - b.bufBase = j * b.memRowBytes + k := by
      omega
    rw [haddr]
    refine memWrite_getD_out b.memBuf src (i * b.memRowBytes) b.memRowBytes
      (j * b.memRowBytes + k) ?_
    rcases Nat.lt_or_ge j i with hji | hji
    · left
      have h1 : (j + 1) * b.memRowBytes ≤ i * b.memRowBytes :=
        Nat.mul_le_mul_right _ hji
      have h2 : (j + 1) * b.memRowBytes = j * b.memRowBytes + b.memRowBytes := by ring
      omega
    · have hij : i + 1 ≤ j := by omega
      right
      have h1 : (i + 1) * b.memRowBytes ≤ j * b.memRowBytes :=
        Nat.mul_le_mul_right _ hij
      omega

/-- Witness for C2 on `c2blk`: writing `[7, 8]` into row 1 and reading it
back through the attached cursor returns `7` at byte 0, while row 0's first
byte keeps its old value. -/
theorem C2_set_get_roundtrip_witness :
    c2blk.get_row 1 = c2blk.bufBase + 1 * c2blk.memRowBytes ∧
    (c2blk.set_row 1 [7, 8]).readByteAt ((c2blk.set_row 1 [7, 8]).get_row 1 + 0) = 7 ∧
    (c2blk.set_row 1 [7, 8]).readByteAt ((c2blk.set_row 1 [7, 8]).get_row 0 + 0) =
      c2blk.readByteAt (c2blk.get_row 0 + 0) := by
  have h := C2_set_get_roundtrip c2blk [7, 8] 1 (by decide)
  exact ⟨h.1, (h.2.1 0 (by decide)).trans (by decide), h.2.2 0 0 (by decide) (by decide)⟩

/-- The in-row footprint of one column: one null-indicator byte when null
support is enabled, followed by the column's fixed value width. -/
def colSize (ns : Bool) (w : Int) : Nat := (if ns then 1 else 0) + w.toNat

/-- Modelled from the spec: the running-offset loop of
`RowBlock::_compute_layout` (declared at row_block.h:156-157; its body is
not under src). Iterate the schema columns in declared order keeping a
running offset that starts at `off`; record the current offset as the
column's field offset (the null-indicator byte when null support is
enabled, else the value byte), then advance past the null byte (if any)
and the fixed value width; fail when a column reports zero or negative
width. Returns `(row_stride, offsets)`. -/
def layoutGo (ns : Bool) : List Int → Nat → Option (Nat × List Nat)
  | [], off => some (off, [])
  | w :: ws, off =>
    if w ≤ 0 then none
    else
      match layoutGo ns ws (off + colSize ns w) with
      | none => none
      | some (stride, offs) => some (stride, off :: offs)

/-- Modelled from the spec: `compute_layout(schema, null_supported)`
starts the running offset at `0` over the schema's column widths. -/
def compute_layout (ns : Bool) (widths : List Int) : Option (Nat × List Nat) :=
  layoutGo ns widths 0

/-- Sum of the per-column footprints of a width list. -/
def sizeSum (ns : Bool) (widths : List Int) : Nat := (widths.map (colSize ns)).sum

/-- The offset table the running-offset loop produces when started at
`off`. -/
def offsetsFrom (ns : Bool) : List Int → Nat → List Nat
  | [], _ => []
  | w :: ws, off => off :: offsetsFrom ns ws (off + colSize ns w)

theorem layoutGo_pos (ns : Bool) : ∀ (ws : List Int) (off : Nat),
    (∀ w ∈ ws, 0 < w) →
    layoutGo ns ws off = some (off + sizeSum ns ws, offsetsFrom ns ws off) := by
  intro ws
  induction ws with
  | nil => intro off _; simp [layoutGo, sizeSum, offsetsFrom]
  | cons w ws ih =>
    intro off h
    have hw : 0 < w := h w (List.mem_cons_self w ws)
    have hws : ∀ x ∈ ws, 0 < x := fun x hx => h x (List.mem_cons_of_mem w hx)
    rw [layoutGo, if_neg (by omega), ih (off + colSize ns w) hws]
    simp only [offsetsFrom, sizeSum, List.map_cons, List.sum_cons]
    have : off + colSize ns w + (ws.map (colSize ns)).sum =
        off + (colSize ns w + (ws.map (colSize ns)).sum) := by omega
    rw [this]

theorem layoutGo_neg (ns : Bool) : ∀ (ws : List Int) (off : Nat),
    (∃ w ∈ ws, w ≤ 0) → layoutGo ns ws off = none := by
  intro ws
  induction ws with
  | nil =>
    rintro off ⟨w, hw, _⟩
    simp at hw
  | cons w ws ih =>
    rintro off ⟨x, hx, hx0⟩
    by_cases hw : w ≤ 0
    · rw [layoutGo, if_pos hw]
    · rcases List.mem_cons.mp hx with rfl | hmem
      · exact absurd hx0 hw
      · rw [layoutGo, if_neg hw, ih (off + colSize ns w) ⟨x, hmem, hx0⟩]

theorem offsetsFrom_length (ns : Bool) : ∀ (ws : List Int) (off : Nat),
    (offsetsFrom ns ws off).length = ws.length := by
  intro ws
  induction ws with
  | nil => intro off; rfl
  | cons w ws ih => intro off; simp [offsetsFrom, ih]

theorem offsetsFrom_getD (ns : Bool) : ∀ (ws : List Int) (off i : Nat), i < ws.length →
    (offsetsFrom ns ws off).getD i 0 = off + sizeSum ns (ws.take i) := by
  intro ws
  induction ws with
  | nil => intro off i hi; simp at hi
  | cons w ws ih =>
    intro off i hi
    cases i with
    | zero => simp [offsetsFrom, sizeSum]
    | succ i =>
      have hi2 : i < ws.length := by simpa using hi
      simp only [offsetsFrom, List.getD_cons_succ, List.take_succ_cons, sizeSum,
        List.map_cons, List.sum_cons, ih (off + colSize ns w) i hi2]
      omega

theorem offsetsFrom_chain (ns : Bool) : ∀ (ws : List Int) (off : Nat),
    (∀ w ∈ ws, 0 < w) → List.Chain' (· < ·) (offsetsFrom ns ws off) := by
  intro ws
  induction ws with
  | nil => intro off _; simp [offsetsFrom]
  | cons w ws ih =>
    intro off h
    have hw : 0 < w := h w (List.mem_cons_self w ws)
    have hws : ∀ x ∈ ws, 0 < x := fun x hx => h x (List.mem_cons_of_mem w hx)
    rw [offsetsFrom, List.chain'_cons']
    refine ⟨?_, ih (off + colSize ns w) hws⟩
    intro b hb
    cases ws with
    | nil => simp [offsetsFrom] at hb
    | cons v vs =>
      simp only [offsetsFrom, List.head?_cons, Option.mem_def, Option.some.injEq] at hb
      have hcs : 0 < colSize ns w := by
        unfold colSize
        omega
      omega

/-- C5: for every schema whose columns all have positive width,
`compute_layout` succeeds with a per-column offset table that starts at
`0`, is strictly increasing, places column `i` at the prefix sum of the
earlier columns' footprints (null byte when enabled, then value bytes),
and a `row_stride` equal to the sum over all columns of (one null byte if
enabled, plus the column's fixed value width); it fails whenever some
column reports zero or negative width. -/
theorem C5_compute_layout (ns : Bool) (widths : List Int) :
    ((∀ w ∈ widths, 0 < w) →
      ∃ stride offs, compute_layout ns widths = some (stride, offs) ∧
        offs.length = widths.length ∧
        (0 < widths.length → offs.getD 0 0 = 0) ∧
        (∀ i, i < widths.length → offs.getD i 0 = sizeSum ns (widths.take i)) ∧
        List.Chain' (· < ·) offs ∧
        stride = (widths.map (fun w => (if ns then 1 else 0) + w.toNat)).sum) ∧
    ((∃ w ∈ widths, w ≤ 0) → compute_layout ns widths = none) := by
  constructor
  · intro h
    refine ⟨sizeSum ns widths, offsetsFrom ns widths 0, ?_, ?_, ?_, ?_, ?_, rfl⟩
    · rw [compute_layout, layoutGo_pos ns widths 0 h, Nat.zero_add]
    · exact offsetsFrom_length ns widths 0
    · intro h0
      rw [offsetsFrom_getD ns widths 0 0 h0]
      simp [sizeSum]
    · intro i hi
      rw [offsetsFrom_getD ns widths 0 i hi, Nat.zero_add]
    · exact offsetsFrom_chain ns widths 0 h
  · intro h
    exact layoutGo_neg ns widths 0 h

/-- Witness for C5: schema widths `[4, 2]` with null support gives stride
`8` and offsets `[0, 5]`; a zero-width column makes the layout fail. -/
theorem C5_compute_layout_witness :
    (∀ w ∈ ([4, 2] : List Int), 0 < w) ∧
    (∃ stride offs, compute_layout true [4, 2] = some (stride, offs) ∧
      offs.length = ([4, 2] : List Int).length ∧
      (0 < ([4, 2] : List Int).length → offs.getD 0 0 = 0) ∧
      (∀ i, i < ([4, 2] : List Int).length →
        offs.getD i 0 = sizeSum true (([4, 2] : List Int).take i)) ∧
      List.Chain' (· < ·) offs ∧
      stride = (([4, 2] : List Int).map (fun w => (if true then 1 else 0) + w.toNat)).sum) ∧
    compute_layout true [4, 0] = none :=
  ⟨by decide, (C5_compute_layout true [4, 2]).1 (by decide),
    (C5_compute_layout true [4, 0]).2 ⟨0, by decide, by decide⟩⟩

/-- A concrete block for the C9 witness: layout of schema widths `[4, 2]`
with null support (stride `8`, offsets `[0, 5]`), based at address `100`. -/
def c9blk : RowBlock :=
  { bufBase := 100, memBuf := List.replicate 16 0, memRowBytes := 8,
    fieldOffsetInMemory := [0, 5], capacity := 2, rowNum := 2, pos := 0,
    limit := 2, blockStatus := 1 }

/-- C9: when the block's stride and offset table come from the layout of a
schema whose columns all have positive width, `field_ptr(row, col)` returns
buffer base + `row * row_stride` + the column's layout offset, i.e. the
address of column `col`'s null-indicator byte (value byte when nulls are
unsupported): base plus `row * row_stride` plus the prefix sum of the
earlier columns' footprints. -/
theorem C9_field_ptr (b : RowBlock) (ns : Bool) (widths : List Int)
    (stride : Nat) (offs : List Nat)
    (hpos : ∀ w ∈ widths, 0 < w)
    (hlay : compute_layout ns widths = some (stride, offs))
    (hoffs : b.fieldOffsetInMemory = offs)
    (hstride : b.memRowBytes = stride)
    (row col : Nat) (hcol : col < widths.length) :
    b.field_ptr row col = b.bufBase + row * stride + sizeSum ns (widths.take col) := by
  rw [compute_layout, layoutGo_pos ns widths 0 hpos, Nat.zero_add] at hlay
  have hs : sizeSum ns widths = stride := congrArg Prod.fst (Option.some.inj hlay)
  have ho : offsetsFrom ns widths 0 = offs := congrArg Prod.snd (Option.some.inj hlay)
  unfold RowBlock.field_ptr
  rw [hoffs, hstride, ← ho, offsetsFrom_getD ns widths 0 col hcol, Nat.zero_add,
    Nat.mul_comm]

/-- Witness for C9 on `c9blk`: the second field of row 1 lives at address
`100 + 1 * 8 + 5 = 113`. -/
theorem C9_field_ptr_witness : c9blk.field_ptr 1 1 = 113 := by
  have h := C9_field_ptr c9blk true [4, 2] 8 [0, 5] (by decide) (by decide) rfl rfl 1 1
    (by decide)
  exact h.trans (by decide)

/-- Modelled from the spec: the library-style binary search that
`RowBlock::find_row` (declared at row_block.h:84-86; body not under src)
runs over the integer index range: the smallest index in `[lo, hi)` at
which the monotone predicate `pred` holds, or `hi` when it never does. -/
def bsearchFirst (pred : Nat → Bool) (lo hi : Nat) : Nat :=
  if h : lo < hi then
    let mid := (lo + hi) / 2
    if pred mid then bsearchFirst pred lo mid
    else bsearchFirst pred (mid + 1) hi
  else lo
termination_by hi - lo
decreasing_by
  · omega
  · omega

theorem bsearchFirst_spec (pred : Nat → Bool) : ∀ (fuel lo hi t : Nat),
    hi - lo ≤ fuel → lo ≤ t → t ≤ hi →
    (∀ i, lo ≤ i → i < t → pred i = false) →
    (∀ i, t ≤ i → i < hi → pred i = true) →
    bsearchFirst pred lo hi = t := by
  intro fuel
  induction fuel with
  | zero =>
    intro lo hi t hf h1 h2 _ _
    rw [bsearchFirst, dif_neg (by omega)]
    omega
  | succ fuel ih =>
    intro lo hi t hf h1 h2 hlow hhigh
    by_cases hlt : lo < hi
    · rw [bsearchFirst, dif_pos hlt]
      simp only
      by_cases hp : pred ((lo + hi) / 2) = true
      · rw [if_pos hp]
        have hmid : t ≤ (lo + hi) / 2 := by
          by_contra hc
          have hf2 := hlow ((lo + hi) / 2) (by omega) (by omega)
          rw [hf2] at hp
          exact Bool.false_ne_true hp
        exact ih lo ((lo + hi) / 2) t (by omega) h1 hmid hlow
          (fun i hi1 hi2 => hhigh i hi1 (by omega))
      · rw [if_neg hp]
        have hmid : (lo + hi) / 2 < t := by
          by_contra hc
          exact hp (hhigh ((lo + hi) / 2) (by omega) (by omega))
        exact ih ((lo + hi) / 2 + 1) hi t (by omega) (by omega) h2
          (fun i hi1 hi2 => hlow i (by omega) hi2) hhigh
    · rw [bsearchFirst, dif_neg hlt]
      omega

theorem sorted_countP_iff {α : Type} [LinearOrder α] (p : α → Bool)
    (hp : ∀ x y : α, x ≤ y → p y = true → p x = true) :
    ∀ (l : List α), l.Sorted (· ≤ ·) → ∀ (i : Nat) (hi : i < l.length),
      (p (l.get ⟨i, hi⟩) = true ↔ i < l.countP p) := by
  intro l
  induction l with
  | nil => intro _ i hi; simp at hi
  | cons a t ih =>
    intro hs i hi
    rw [List.sorted_cons] at hs
    obtain ⟨ha, ht⟩ := hs
    by_cases hpa : p a = true
    · cases i with
      | zero =>
        have hget : (a :: t).get ⟨0, hi⟩ = a := rfl
        rw [hget, List.countP_cons, if_pos hpa]
        simp only [hpa, true_iff]
        omega
      | succ i =>
        have hi2 : i < t.length := by simpa using hi
        have hget : (a :: t).get ⟨i + 1, hi⟩ = t.get ⟨i, hi2⟩ := rfl
        rw [hget, ih ht i hi2, List.countP_cons, if_pos hpa]
        omega
    · have htf : ∀ b ∈ t, ¬ p b = true := by
        intro b hb hc
        exact hpa (hp a b (ha b hb) hc)
      have hpa2 : p a = false := by simpa using hpa
      have hct : t.countP p = 0 := by
        rw [List.countP_eq_zero]
        intro b hb
        simpa using htf b hb
      have hc0 : (a :: t).countP p = 0 := by
        rw [List.countP_cons, hct, hpa2]
        rfl
      cases i with
      | zero =>
        have hget : (a :: t).get ⟨0, hi⟩ = a := rfl
        rw [hget, hc0]
        simp [hpa2]
      | succ i =>
        have hi2 : i < t.length := by simpa using hi
        have hget : (a :: t).get ⟨i + 1, hi⟩ = t.get ⟨i, hi2⟩ := rfl
        rw [hget, hc0]
        constructor
        · intro hpt
          exact absurd hpt (htf _ (t.get_mem i hi2))
        · omega

theorem bsearch_countP {α : Type} [LinearOrder α] (l : List α) (p : α → Bool)
    (pred : Nat → Bool)
    (hp : ∀ x y : α, x ≤ y → p y = true → p x = true)
    (hs : l.Sorted (· ≤ ·))
    (hpred : ∀ i (hi : i < l.length), (pred i = false ↔ p (l.get ⟨i, hi⟩) = true)) :
    bsearchFirst pred 0 l.length = l.countP p := by
  have hc : l.countP p ≤ l.length := List.countP_le_length p
  refine bsearchFirst_spec pred l.length 0 l.length (l.countP p) (by omega) (by omega) hc
    ?_ ?_
  · intro i _ hi
    have hin : i < l.length := by omega
    rw [hpred i hin]
    exact (sorted_countP_iff p hp l hs i hin).mpr hi
  · intro i hi hin
    by_contra hc2
    have hf : pred i = false := by
      cases hpf : pred i
      · rfl
      · exact absurd hpf hc2
    rw [hpred i hin] at hf
    have := (sorted_countP_iff p hp l hs i hin).mp hf
    omega

/-- Key-level view of a `RowBlock`: each buffer slot is represented by its
row key (the projection the row cursor's three-way comparison `cmp` is a
total order on); `rowCount` is the logical row count fixed by `finalize`,
`finalized` the lifecycle phase the status-returning operations check. -/
structure RowBlockK (α : Type) where
  capacity : Nat
  buf : List α
  rowCount : Nat
  pos : Nat
  limit : Nat
  blockStatus : Nat
  finalized : Bool
deriving Repr, DecidableEq

namespace RowBlockK

/-- The logical rows `[0, row_count)` of the block. -/
def rows {α : Type} (b : RowBlockK α) : List α := b.buf.take b.rowCount

/-- `set_row(index, source)` at the key level: store the source row's key
in slot `index` (row_block.h:73-76). -/
def set_row {α : Type} (b : RowBlockK α) (index : Nat) (x : α) : RowBlockK α :=
  { b with buf := b.buf.set index x }

/-- Modelled from the spec: `RowBlock::finalize(row_num)` (declared at
row_block.h:79; body not under src) fixes the logical row count and resets
the scan cursor to `pos = 0`, `limit = row_num`; a row count above the
block's capacity is a configuration failure reported as a failure
status (`none`). -/
def finalize {α : Type} (b : RowBlockK α) (k : Nat) : Option (RowBlockK α) :=
  if k ≤ b.capacity then
    some { b with rowCount := k, pos := 0, limit := k, finalized := true }
  else none

/-- Modelled from the spec: `RowBlock::clear()` (declared at
row_block.h:103-104; body not under src) resets `row_count`, `pos`,
`limit` and the block status back to the state right after `init` —
empty but still allocated: the buffer itself is kept for reuse. -/
def clear {α : Type} (b : RowBlockK α) : RowBlockK α :=
  { b with rowCount := 0, pos := 0, limit := 0, blockStatus := 1,
           finalized := false }

/-- Refill a cleared block with a batch of `set_row` writes. -/
def refill {α : Type} (b : RowBlockK α) (ws : List (Nat × α)) : RowBlockK α :=
  ws.foldl (fun s q => s.set_row q.1 q.2) b

/-- Modelled from the spec: `RowBlock::find_row(key, find_last, row_index)`
(declared at row_block.h:84-86; body not under src). Binary search over
the virtual index range `[0, row_count)` using the comparator predicates
of `RowBlockComparator` (row_block.h:119-150): the lower-bound search uses
the less comparator `row(i).cmp(key) < 0`, the upper-bound search the
larger comparator `row(i).cmp(key) > 0`. The found index is a success
result; `none` stands for the failure status returned on an internal
invariant violation (block not finalized). -/
def find_row {α : Type} [LinearOrder α] (b : RowBlockK α) (key : α)
    (findLast : Bool) : Option Nat :=
  if b.finalized then
    some (if findLast then
      bsearchFirst (fun i => decide (key < b.buf.getD i key)) 0 b.rowCount
    else
      bsearchFirst (fun i => ! decide (b.buf.getD i key < key)) 0 b.rowCount)
  else none

end RowBlockK

theorem rows_length {α : Type} (b : RowBlockK α) (hrc : b.rowCount ≤ b.buf.length) :
    (RowBlockK.rows b).length = b.rowCount := by
  rw [RowBlockK.rows, List.length_take]
  omega

theorem buf_getD_rows {α : Type} (b : RowBlockK α) (hrc : b.rowCount ≤ b.buf.length)
    (i : Nat) (hi : i < (RowBlockK.rows b).length) (d : α) :
    b.buf.getD i d = (RowBlockK.rows b).get ⟨i, hi⟩ := by
  have hi2 : i < b.rowCount := by
    rw [rows_length b hrc] at hi
    exact hi
  have hi3 : i < b.buf.length := by omega
  rw [List.getD_eq_getElem?_getD, List.getElem?_eq_getElem hi3]
  show getElem b.buf i hi3 = (RowBlockK.rows b).get ⟨i, hi⟩
  simp only [RowBlockK.rows, List.get_eq_getElem]
  exact List.getElem_take' b.buf hi3 hi2

/-- The spec's scenario block: keys `[10, 20, 20, 30]`, finalized at 4. -/
def blkK4 : RowBlockK Int :=
  { capacity := 4, buf := [10, 20, 20, 30], rowCount := 4, pos := 0,
    limit := 4, blockStatus := 1, finalized := true }

/-- The lower-bound search returns the count of rows comparing less than
the probe key. -/
theorem find_row_lower {α : Type} [LinearOrder α] (b : RowBlockK α) (q : α)
    (hfin : b.finalized = true) (hrc : b.rowCount ≤ b.buf.length)
    (hs : (RowBlockK.rows b).Sorted (· ≤ ·)) :
    b.find_row q false = some ((RowBlockK.rows b).countP (fun x => decide (x < q))) := by
  have hlen := rows_length b hrc
  rw [RowBlockK.find_row, if_pos hfin]
  show some (bsearchFirst (fun i => ! decide (b.buf.getD i q < q)) 0 b.rowCount) = _
  rw [← hlen]
  refine congrArg some (bsearch_countP (RowBlockK.rows b) (fun x => decide (x < q)) _
    ?_ hs ?_)
  · intro x y hxy hy
    simp only [decide_eq_true_eq] at *
    exact lt_of_le_of_lt hxy hy
  · intro i hi
    show (! decide (b.buf.getD i q < q)) = false ↔ _
    rw [buf_getD_rows b hrc i hi q]
    simp

theorem find_row_upper {α : Type} [LinearOrder α] (b : RowBlockK α) (q : α)
    (hfin : b.finalized = true) (hrc : b.rowCount ≤ b.buf.length)
    (hs : (RowBlockK.rows b).Sorted (· ≤ ·)) :
    b.find_row q true = some ((RowBlockK.rows b).countP (fun x => decide (x ≤ q))) := by
  have hlen := rows_length b hrc
  rw [RowBlockK.find_row, if_pos hfin]
  show some (bsearchFirst (fun i => decide (q < b.buf.getD i q)) 0 b.rowCount) = _
  rw [← hlen]
  refine congrArg some (bsearch_countP (RowBlockK.rows b) (fun x => decide (x ≤ q)) _
    ?_ hs ?_)
  · intro x y hxy hy
    simp only [decide_eq_true_eq] at *
    exact le_trans hxy hy
  · intro i hi
    show decide (q < b.buf.getD i q) = false ↔ _
    rw [buf_getD_rows b hrc i hi q]
    simp [not_lt]

/-- C1: for a finalized block whose rows `[0, row_count)` are sorted
ascending under the cursor's comparison and any probe key `q`,
`find_row(q, false)` returns the lower bound — the count of rows comparing
less than `q`, i.e. the smallest index whose row is not less than `q` —
and `find_row(q, true)` returns the upper bound — the count of rows
comparing less than or equal to `q`, i.e. the smallest index whose row is
strictly greater than `q`. -/
theorem C1_find_row_bounds {α : Type} [LinearOrder α] (b : RowBlockK α) (q : α)
    (hfin : b.finalized = true) (hrc : b.rowCount ≤ b.buf.length)
    (hs : (RowBlockK.rows b).Sorted (· ≤ ·)) :
    b.find_row q false = some ((RowBlockK.rows b).countP (fun x => decide (x < q))) ∧
    b.find_row q true = some ((RowBlockK.rows b).countP (fun x => decide (x ≤ q))) :=
  ⟨find_row_lower b q hfin hrc hs, find_row_upper b q hfin hrc hs⟩

/-- Witness for C1 on the scenario block: `find_row(20, false) = 1`,
`find_row(20, true) = 3`, `find_row(5, false) = 0`,
`find_row(99, false) = 4`. -/
theorem C1_find_row_bounds_witness :
    blkK4.find_row 20 false = some 1 ∧ blkK4.find_row 20 true = some 3 ∧
    blkK4.find_row 5 false = some 0 ∧ blkK4.find_row 99 false = some 4 := by
  have h20 := C1_find_row_bounds blkK4 20 rfl (by decide) (by decide)
  have h5 := C1_find_row_bounds blkK4 5 rfl (by decide) (by decide)
  have h99 := C1_find_row_bounds blkK4 99 rfl (by decide) (by decide)
  exact ⟨h20.1.trans (by decide), h20.2.trans (by decide),
    h5.1.trans (by decide), h99.1.trans (by decide)⟩

/-- C7: for every `k` with `0 ≤ k ≤ capacity`, `finalize(k)` succeeds and
fixes the block's logical row count to `k`, resetting `pos` to `0` and
`limit` to `k`. -/
theorem C7_finalize {α : Type} (b : RowBlockK α) (k : Nat) (hk : k ≤ b.capacity) :
    ∃ c, RowBlockK.finalize b k = some c ∧ c.rowCount = k ∧ c.pos = 0 ∧ c.limit = k := by
  refine ⟨{ b with rowCount := k, pos := 0, limit := k, finalized := true },
    ?_, rfl, rfl, rfl⟩
  rw [RowBlockK.finalize, if_pos hk]

/-- Witness for C7: `finalize(3)` on the scenario block. -/
theorem C7_finalize_witness :
    (3 : Nat) ≤ blkK4.capacity ∧
    ∃ c, RowBlockK.finalize blkK4 3 = some c ∧
      c.rowCount = 3 ∧ c.pos = 0 ∧ c.limit = 3 :=
  ⟨by decide, C7_finalize blkK4 3 (by decide)⟩

theorem refill_capacity {α : Type} : ∀ (ws : List (Nat × α)) (b : RowBlockK α),
    (RowBlockK.refill b ws).capacity = b.capacity := by
  intro ws
  induction ws with
  | nil => intro b; rfl
  | cons w ws ih =>
    intro b
    show (RowBlockK.refill (b.set_row w.1 w.2) ws).capacity = b.capacity
    rw [ih (b.set_row w.1 w.2)]
    rfl

/-- C6: on a finalized block, `clear()` resets `pos` to `0`, `limit` to
`0`, and `row_count` and the block status to the empty-but-allocated
state, keeping the buffer (and capacity) untouched; a subsequent refill
followed by `finalize(k)` then yields `row_count = k`, `pos = 0`,
`limit = k`, independent of the prior cycle's contents. -/
theorem C6_clear_reuse {α : Type} (b : RowBlockK α) (ws : List (Nat × α)) (k : Nat)
    (hfin : b.finalized = true) (hk : k ≤ b.capacity) :
    (RowBlockK.clear b).pos = 0 ∧ (RowBlockK.clear b).limit = 0 ∧
    (RowBlockK.clear b).rowCount = 0 ∧ (RowBlockK.clear b).blockStatus = 1 ∧
    (RowBlockK.clear b).finalized = false ∧
    (RowBlockK.clear b).buf = b.buf ∧ (RowBlockK.clear b).capacity = b.capacity ∧
    ∃ c, RowBlockK.finalize (RowBlockK.refill (RowBlockK.clear b) ws) k = some c ∧
      c.rowCount = k ∧ c.pos = 0 ∧ c.limit = k := by
  refine ⟨rfl, rfl, rfl, rfl, rfl, rfl, rfl, ?_⟩
  refine ⟨{ RowBlockK.refill (RowBlockK.clear b) ws with
    rowCount := k, pos := 0, limit := k, finalized := true }, ?_, rfl, rfl, rfl⟩
  rw [RowBlockK.finalize,
    if_pos (by rw [refill_capacity ws (RowBlockK.clear b)]; exact hk)]

/-- Witness for C6: clear the scenario block, refill slot 0 with key `7`,
finalize at 2. -/
theorem C6_clear_reuse_witness :
    blkK4.finalized = true ∧ (2 : Nat) ≤ blkK4.capacity ∧
    ((RowBlockK.clear blkK4).pos = 0 ∧ (RowBlockK.clear blkK4).limit = 0 ∧
    (RowBlockK.clear blkK4).rowCount = 0 ∧ (RowBlockK.clear blkK4).blockStatus = 1 ∧
    (RowBlockK.clear blkK4).finalized = false ∧
    (RowBlockK.clear blkK4).buf = blkK4.buf ∧
    (RowBlockK.clear blkK4).capacity = blkK4.capacity ∧
    ∃ c, RowBlockK.finalize
        (RowBlockK.refill (RowBlockK.clear blkK4) [(0, (7 : Int))]) 2 = some c ∧
      c.rowCount = 2 ∧ c.pos = 0 ∧ c.limit = 2) :=
  ⟨rfl, by decide, C6_clear_reuse blkK4 [(0, (7 : Int))] 2 rfl (by decide)⟩

/-- C8: on a finalized sorted block, `find_row` returns a success status
with an index at most `row_count`, and the index equals `row_count`
exactly when no row qualifies (for the lower bound: no row is `≥ key`,
i.e. every row is `< key`; for the upper bound: every row is `≤ key`);
the failure status is returned only when the block is not finalized. -/
theorem C8_find_row_status {α : Type} [LinearOrder α] (b : RowBlockK α) (q : α)
    (fl : Bool) (hrc : b.rowCount ≤ b.buf.length)
    (hs : (RowBlockK.rows b).Sorted (· ≤ ·)) :
    (b.finalized = true →
      ∃ i, b.find_row q fl = some i ∧ i ≤ b.rowCount ∧
        (i = b.rowCount ↔ ∀ x ∈ RowBlockK.rows b, (if fl then x ≤ q else x < q))) ∧
    (b.finalized = false → b.find_row q fl = none) := by
  have hlen := rows_length b hrc
  constructor
  · intro hfin
    cases fl with
    | false =>
      refine ⟨(RowBlockK.rows b).countP (fun x => decide (x < q)),
        find_row_lower b q hfin hrc hs, ?_, ?_⟩
      · rw [← hlen]
        exact List.countP_le_length _
      · rw [← hlen, List.countP_eq_length]
        constructor
        · intro hall x hx
          simpa using hall x hx
        · intro hall x hx
          simpa using hall x hx
    | true =>
      refine ⟨(RowBlockK.rows b).countP (fun x => decide (x ≤ q)),
        find_row_upper b q hfin hrc hs, ?_, ?_⟩
      · rw [← hlen]
        exact List.countP_le_length _
      · rw [← hlen, List.countP_eq_length]
        constructor
        · intro hall x hx
          simpa using hall x hx
        · intro hall x hx
          simpa using hall x hx
  · intro hnf
    rw [RowBlockK.find_row, hnf]
    rfl

/-- Witness for C8: probe `99` on the scenario block (all rows smaller, so
the lower bound is `row_count = 4` with a success status), and the failure
status on the cleared (unfinalized) block. -/
theorem C8_find_row_status_witness :
    (∃ i, blkK4.find_row 99 false = some i ∧ i ≤ blkK4.rowCount ∧
      (i = blkK4.rowCount ↔
        ∀ x ∈ RowBlockK.rows blkK4, (if false then x ≤ 99 else x < 99))) ∧
    (RowBlockK.clear blkK4).find_row 99 false = none :=
  ⟨(C8_find_row_status blkK4 99 false (by decide) (by decide)).1 rfl,
    (C8_find_row_status (RowBlockK.clear blkK4) 99 false (by decide) (by decide)).2 rfl⟩

namespace RowBlock

/-- Method-call form of the `const` accessor `get_row(row_index, cursor)`
(row_block.h:69-71): the block is returned unchanged; the caller-supplied
cursor (modelled by the address it is attached to) is re-attached to
`_mem_buf + row_index * _mem_row_bytes`. -/
def get_rowM (b : RowBlock) (rowIndex : Nat) (cursor : Nat) : RowBlock × Nat :=
  (b, b.bufBase + rowIndex * b.memRowBytes)

/-- Method-call form of the `const` accessor `field_ptr` (row_block.h:95-97). -/
def field_ptrM (b : RowBlock) (row col : Nat) : RowBlock × Nat :=
  (b, b.field_ptr row col)

/-- Method-call form of the `const` accessor `row_num()` (row_block.h:88). -/
def row_numM (b : RowBlock) : RowBlock × Nat := (b, b.rowNum)

/-- Method-call form of the `const` accessor `capacity()` (row_block.h:91). -/
def capacityM (b : RowBlock) : RowBlock × Nat := (b, b.capacity)

/-- Method-call form of the `const` accessor `pos()` (row_block.h:106). -/
def posM (b : RowBlock) : RowBlock × Nat := (b, b.pos)

/-- Method-call form of the `const` accessor `limit()` (row_block.h:109). -/
def limitM (b : RowBlock) : RowBlock × Nat := (b, b.limit)

/-- Method-call form of the `const` accessor `remaining()` (row_block.h:111). -/
def remainingM (b : RowBlock) : RowBlock × Nat := (b, b.remaining)

/-- Method-call form of the `const` accessor `has_remaining()` (row_block.h:112). -/
def has_remainingM (b : RowBlock) : RowBlock × Bool := (b, b.has_remaining)

/-- Method-call form of the `const` accessor `block_status()` (row_block.h:113). -/
def block_statusM (b : RowBlock) : RowBlock × Nat := (b, b.blockStatus)

end RowBlock

/-- C10: every read accessor of the block — `get_row`, `field_ptr`,
`row_num`, `capacity`, `pos`, `limit`, `remaining`, `has_remaining`,
`block_status` — returns the block state (buffer contents, pos, limit,
row count, status) unchanged; in particular `get_row` writes only into the
caller-supplied cursor, re-attaching it to the row's address, never into
the block. -/
theorem C10_read_accessors_pure (b : RowBlock) (rowIndex cursor row col : Nat) :
    (b.get_rowM rowIndex cursor).1 = b ∧
    (b.get_rowM rowIndex cursor).2 = b.get_row rowIndex ∧
    (b.field_ptrM row col).1 = b ∧ b.row_numM.1 = b ∧ b.capacityM.1 = b ∧
    b.posM.1 = b ∧ b.limitM.1 = b ∧ b.remainingM.1 = b ∧
    b.has_remainingM.1 = b ∧ b.block_statusM.1 = b :=
  ⟨rfl, rfl, rfl, rfl, rfl, rfl, rfl, rfl, rfl, rfl⟩
